import Mathlib

/-!
# Verification of the awk-interpreter run protocol and builtins

A shallow embedding, in Lean 4, of the parts of the C++ AWK interpreter
(src/src/interpreter.cpp, interpreter_eval.cpp, interpreter_exec.cpp,
interpreter_builtins_string.cpp, value.cpp) that the specification claims
talk about, together with theorems settling each claim.

Modelling conventions:
* AWK numbers are IEEE doubles in the source; every claim below exercises
  only integer-valued numbers, so numbers are modelled by `Int` (indices
  are truncated to `int` in the source before use).
* The std::regex engine is external to the interpreter; a compiled regex
  is modelled by a `Matcher`: a leftmost-search function returning the
  position and length of the first match inside a given character list,
  bundled with the in-bounds guarantee that `std::regex_search` provides.
* Control-flow exceptions (`BreakException` ... `ExitException`) become an
  explicit `Signal` value threaded through the driver functions, exactly
  mirroring the try/catch structure of `Interpreter::run`,
  `Interpreter::process_file` and `Interpreter::process_stream`.
-/

set_option maxRecDepth 4096

namespace Awk

/-! ## Control-flow signals (interpreter.hpp, Control Flow Exceptions)

`struct BreakException {}; struct ContinueException {}; struct NextException {};
struct NextfileException {}; struct ReturnException { AWKValue value; };
struct ExitException { int status; };`
Only the signals that can reach the driver loops matter for the run
protocol; Break/Continue/Return are caught inside statement execution and
user-function calls and never reach `run`.  -/
inductive Signal where
  | none
  | next
  | nextfileSig
  | exitSig (status : Int)
  deriving Repr, DecidableEq

/-- Observable driver state: the log records, in order, the effects of the
rule actions that were actually executed (each action appends entries). -/
structure DriverState where
  log : List String
  deriving Repr, DecidableEq

/-- A rule action: mutates the driver state and either finishes normally or
throws one of the control-flow signals (partway effects stay, as with C++
exceptions). -/
def Action : Type := DriverState → DriverState × Signal

/-- The rule sets of a program, already grouped the way
`execute_begin_rules` / `execute_end_rules` / `execute_beginfile_rules` /
`execute_endfile_rules` / `execute_main_rules` iterate them: each helper
walks `program.rules` in source order and runs the actions of the rules
with the matching pattern type. -/
structure DriverProgram where
  begins : List Action
  ends : List Action
  beginfiles : List Action
  endfiles : List Action
  mains : List Action

/-- Source-order execution of one rule set (the loop bodies of
`execute_*_rules`): a thrown signal aborts the loop and propagates. -/
def runActions : List Action → DriverState → DriverState × Signal
  | [], st => (st, .none)
  | a :: rest, st =>
    match a st with
    | (st', .none) => runActions rest st'
    | (st', sig) => (st', sig)

/-- `Interpreter::process_stream`: `while (read_record(input))` runs the
main rules for each record, catching only `NextException`; every other
signal propagates out of the loop.  An input stream is modelled by its
record count, since the driver claims do not depend on record contents. -/
def processStream (mains : List Action) : Nat → DriverState → DriverState × Signal
  | 0, st => (st, .none)
  | n + 1, st =>
    match runActions mains st with
    | (st', .none) => processStream mains n st'
    | (st', .next) => processStream mains n st'
    | (st', sig) => (st', sig)

/-- `Interpreter::process_file` (interpreter.cpp lines 144-159): runs the
BEGINFILE rules, the record loop, then the ENDFILE rules.  There is no
try/catch here: any signal thrown inside `process_stream` (in particular
`NextfileException`) propagates immediately, skipping
`execute_endfile_rules`. -/
def processFile (p : DriverProgram) (records : Nat) (st : DriverState) :
    DriverState × Signal :=
  match runActions p.beginfiles st with
  | (st1, .none) =>
    match processStream p.mains records st1 with
    | (st2, .none) => runActions p.endfiles st2
    | (st2, sig) => (st2, sig)
  | (st1, sig) => (st1, sig)

/-- The per-file loop of `Interpreter::run` (interpreter.cpp lines 119-127):
`try { process_file(filename); } catch (const NextfileException&) { continue; }`.
`NextfileException` is caught here, after `process_file` has already
unwound past its ENDFILE step. -/
def runFiles (p : DriverProgram) : List Nat → DriverState → DriverState × Signal
  | [], st => (st, .none)
  | f :: rest, st =>
    match processFile p f st with
    | (st', .none) => runFiles p rest st'
    | (st', .nextfileSig) => runFiles p rest st'
    | (st', sig) => (st', sig)

/-- `Interpreter::run` (interpreter.cpp lines 110-142).  The single try
block wraps the BEGIN rules, the whole per-file stage and the END rules;
`catch (const ExitException&)` sits after `execute_end_rules()`, so an
exit thrown at any earlier point unwinds past the END rules.  The result
pairs the final state with the status carried by a caught
`ExitException`, which `run` then discards (the comment in the source
reads: status is ignored).  `files = []` models an empty input list, in
which case the records come from stdin through `process_stream` directly,
with no BEGINFILE/ENDFILE stage. -/
def runModel (p : DriverProgram) (files : List Nat) (stdinRecords : Nat) :
    DriverState × Option Int :=
  match runActions p.begins { log := [] } with
  | (st1, .exitSig s) => (st1, some s)
  | (st1, _) =>
    match (if files.isEmpty then processStream p.mains stdinRecords st1
           else runFiles p files st1) with
    | (st2, .exitSig s) => (st2, some s)
    | (st2, _) =>
      match runActions p.ends st2 with
      | (st3, .exitSig s) => (st3, some s)
      | (st3, _) => (st3, Option.none)

/-- `main` (main.cpp lines 176-185): after a successful parse it calls
`interpreter.run(*program, input_files)` and then `return 0;`.  The status
captured by the `catch (const ExitException&)` inside `run` is dropped, so
the process exit status of an error-free run is always 0. -/
def mainExitStatus (p : DriverProgram) (files : List Nat) (stdinRecords : Nat) :
    Int :=
  let _ := runModel p files stdinRecords
  0

/-! ## Fields and the current record (interpreter.cpp lines 815-992)

State from interpreter.hpp: `current_record_`, `fields_`, `fields_dirty_`,
`record_dirty_`, plus the value of the `NF` special variable held in the
environment (`env_.NF()`, always set from `fields_.size()`).  The
`field_values_` cache of AWKValue wrappers is omitted: it memoizes
`AWKValue::strnum(fields_[idx])` and is invalidated on every write, so it
never changes an observable result.  Field values enter and leave these
functions through their string forms. -/
structure FieldState where
  record : String
  fields : List String
  recordDirty : Bool
  fieldsDirty : Bool
  nf : Nat
  deriving Repr, DecidableEq

/-- The FS strategy of `parse_fields` is a leaf of the claims below; it is
abstracted as a `String → List String` splitter passed explicitly.  The
accumulator holds the current token reversed. -/
def wordsAux : List Char → List Char → List String
  | [], acc => if acc.isEmpty then [] else [String.mk acc.reverse]
  | c :: rest, acc =>
    if c.isWhitespace then
      if acc.isEmpty then wordsAux rest []
      else String.mk acc.reverse :: wordsAux rest []
    else wordsAux rest (c :: acc)

/-- The `FS == " "` default splitting path of `parse_fields`
(`std::istringstream iss >> field`): whitespace-separated tokens, leading
and trailing whitespace trimmed. -/
def splitWhitespace (s : String) : List String := wordsAux s.toList []

/-- `Interpreter::parse_fields`: a no-op unless `record_dirty_`; otherwise
re-splits `current_record_`, sets `NF` to the new field count and clears
both dirty flags. -/
def parse_fields (split : String → List String) (st : FieldState) : FieldState :=
  if st.recordDirty then
    let fs := split st.record
    { st with fields := fs, nf := fs.length, recordDirty := false, fieldsDirty := false }
  else st

/-- `Interpreter::rebuild_record`: a no-op unless `fields_dirty_`; otherwise
re-joins the fields with OFS and clears the flag. -/
def rebuild_record (ofs : String) (st : FieldState) : FieldState :=
  if st.fieldsDirty then
    { st with record := String.intercalate ofs st.fields, fieldsDirty := false }
  else st

/-- The `while (index > fields_.size()) fields_.push_back("")` extension
loop shared by `get_field` and `set_field`. -/
def extendFields (fields : List String) (idx : Nat) : List String :=
  if fields.length < idx then fields ++ List.replicate (idx - fields.length) ""
  else fields

/-- `Interpreter::get_field` (interpreter.cpp lines 921-954).  Returns the
string content of the field value (the source returns
`AWKValue::strnum` of it) together with the state after the call — note
that for a positive index beyond the current field count the fields
vector is extended in place, while `NF` and the dirty flags are not
touched. -/
def get_field (split : String → List String) (ofs : String) (i : Int)
    (st : FieldState) : String × FieldState :=
  let st1 := parse_fields split st
  if i = 0 then
    let st2 := rebuild_record ofs st1
    (st2.record, st2)
  else if i < 0 then
    ("", st1)
  else
    let idx := i.toNat
    let fields' := extendFields st1.fields idx
    (fields'.getD (idx - 1) "", { st1 with fields := fields' })

/-- `Interpreter::set_field` (interpreter.cpp lines 956-982).  The stored
value is its string form (`value.to_string()`). -/
def set_field (split : String → List String) (i : Int) (v : String)
    (st : FieldState) : FieldState :=
  let st1 := parse_fields split st
  if i = 0 then
    parse_fields split { st1 with record := v, recordDirty := true }
  else if i < 0 then
    st1
  else
    let idx := i.toNat
    let fields' := (extendFields st1.fields idx).set (idx - 1) v
    { st1 with fields := fields', fieldsDirty := true, nf := fields'.length }

/-- The interpreter's start state: empty record, no fields, clean flags. -/
def initFieldState : FieldState :=
  { record := "", fields := [], recordDirty := false, fieldsDirty := false, nf := 0 }

/-! ## substr (interpreter_builtins_string.cpp lines 113-126)

`int start = (int)args[1].to_number();` and
`size_t len = (size_t)args[2].to_number();` truncate the AWK numbers; the
claims exercise only integer-valued arguments, modelled as `Int` directly.
The `static_cast<size_t>` of a negative double is modelled as the
two's-complement wrap the reference x86-64 platform produces
(cvttsd2si into a 64-bit register). -/
def sizeTOfInt (n : Int) : Nat :=
  if 0 ≤ n then n.toNat else 2 ^ 64 - n.natAbs

/-- The `substr` builtin with three arguments:
`if (start < 1) start = 1; idx = start - 1;`
`if (idx >= str.length()) return ""; return str.substr(idx, len);`
(`std::string::substr(pos, count)` takes at most `count` characters). -/
def substrModel3 (s : String) (m : Int) (n : Int) : String :=
  let start := if m < 1 then 1 else m
  let idx := (start - 1).toNat
  if s.length ≤ idx then ""
  else String.mk ((s.toList.drop idx).take (sizeTOfInt n))

/-- The `substr` builtin with two arguments: `len` defaults to
`std::string::npos`, i.e. the whole suffix is taken. -/
def substrModel2 (s : String) (m : Int) : String :=
  let start := if m < 1 then 1 else m
  let idx := (start - 1).toNat
  if s.length ≤ idx then ""
  else String.mk (s.toList.drop idx)

/-! ## sub / gsub (interpreter.cpp lines 426-499)

Strings handed to the regex engine are modelled as `List Char`.  A
compiled `std::regex` is abstracted to its observable behaviour in this
code: `std::regex_search(first, last, match, re)` reports the position
and length of the leftmost match in the range, always inside the range.
POSIX (leftmost-longest) matching never prefers an empty match at a
position where a non-empty match starts, so after an empty match
`std::sregex_iterator` advances by one character — the same advance the
source's counting loop performs by hand. -/
structure Matcher where
  find : List Char → Option (Nat × Nat)
  valid : ∀ l p len, find l = some (p, len) → p + len ≤ l.length

/-- `convert_awk_replacement` (interpreter.hpp lines 196-225) with
`support_backrefs = false`, the form used by `sub`/`gsub`:
`&` becomes the std format directive `$&`, `\&` a literal ampersand,
`\\` a literal backslash; any other character passes through. -/
def convert_awk_replacement : List Char → List Char
  | '\\' :: c :: rest =>
    if c = '&' then '&' :: convert_awk_replacement rest
    else if c = '\\' then '\\' :: convert_awk_replacement rest
    else '\\' :: convert_awk_replacement (c :: rest)
  | '&' :: rest => '$' :: '&' :: convert_awk_replacement rest
  | c :: rest => c :: convert_awk_replacement rest
  | [] => []

/-- `std::regex_replace` format-string expansion, restricted to the
directives reachable here: `$&` inserts the matched text, `$$` a dollar
sign; everything else is literal. -/
def formatRepl (matched : List Char) : List Char → List Char
  | '$' :: '&' :: rest => matched ++ formatRepl matched rest
  | '$' :: '$' :: rest => '$' :: formatRepl matched rest
  | c :: rest => c :: formatRepl matched rest
  | [] => []

/-- `std::regex_replace(s, re, fmt, format_first_only)`: replace the
leftmost match (if any) by the expanded format, keep everything else. -/
def replaceFirst (m : Matcher) (fmt : List Char) (l : List Char) : List Char :=
  match m.find l with
  | Option.none => l
  | some (p, len) =>
    l.take p ++ formatRepl ((l.drop p).take len) fmt ++ l.drop (p + len)

/-- `std::regex_replace(s, re, fmt)`: every match is replaced; after an
empty match the unmatched character is copied and the search resumes one
position later.  The second component counts the replacements performed
(the number of times the format string was expanded into the output). -/
def replaceAllAux (m : Matcher) (fmt : List Char) (l : List Char) : List Char × Nat :=
  match h : m.find l with
  | Option.none => (l, 0)
  | some (p, len) =>
    let matched := (l.drop p).take len
    if hlen : 0 < len then
      let r := replaceAllAux m fmt (l.drop (p + len))
      (l.take p ++ formatRepl matched fmt ++ r.1, r.2 + 1)
    else
      if hp : p < l.length then
        let r := replaceAllAux m fmt (l.drop (p + 1))
        (l.take p ++ formatRepl matched fmt ++ l.get ⟨p, hp⟩ :: r.1, r.2 + 1)
      else
        (l.take p ++ formatRepl matched fmt, 1)
termination_by l.length
decreasing_by
  · have hv := m.valid l p len h
    simp only [List.length_drop]
    omega
  · simp only [List.length_drop]
    omega

/-- The match-counting loop of the `gsub` branch of
`Interpreter::evaluate(CallExpr&)` (interpreter.cpp lines 466-476):
repeated `regex_search` from `searchStart`, with a manual one-character
advance after an empty match (or a break at the end of the string). -/
def countMatches (m : Matcher) (l : List Char) : Nat :=
  match h : m.find l with
  | Option.none => 0
  | some (p, len) =>
    if hlen : 0 < len then countMatches m (l.drop (p + len)) + 1
    else if hp : p < l.length then countMatches m (l.drop (p + 1)) + 1
    else 1
termination_by l.length
decreasing_by
  · have hv := m.valid l p len h
    simp only [List.length_drop]
    omega
  · simp only [List.length_drop]
    omega

/-- The `sub` branch of `Interpreter::evaluate(CallExpr&)` (interpreter.cpp
lines 461-464 and 480-492): first component is the value stored in the
target lvalue after the call (the write-back at line 481 is skipped when
the result string is unchanged, which leaves the same string either way),
second component is the returned count. -/
def subCall (m : Matcher) (repl : List Char) (target : List Char) :
    List Char × Nat :=
  let fmt := convert_awk_replacement repl
  let result := replaceFirst m fmt target
  if result ≠ target then (result, 1) else (target, 0)

/-- The `gsub` branch of `Interpreter::evaluate(CallExpr&)` (interpreter.cpp
lines 465-492): the count comes from the search loop, the new string from
one `std::regex_replace` over the whole target. -/
def gsubCall (m : Matcher) (repl : List Char) (target : List Char) :
    List Char × Nat :=
  let fmt := convert_awk_replacement repl
  let count := countMatches m target
  let result := (replaceAllAux m fmt target).1
  if result ≠ target then (result, count) else (target, count)

/-- Does the second list start with the first one? -/
def startsWith : List Char → List Char → Bool
  | [], _ => true
  | _ :: _, [] => false
  | c :: cs, d :: ds => c = d && startsWith cs ds

/-- Leftmost occurrence of a literal pattern, as a concrete regex for the
witnesses: the position of the first suffix that starts with `pat`. -/
def litFindPos (pat : List Char) : List Char → Option Nat
  | [] => if pat.isEmpty then some 0 else Option.none
  | c :: rest =>
    if startsWith pat (c :: rest) then some 0
    else (litFindPos pat rest).map (fun i => i + 1)

/-! ## Range patterns (interpreter.cpp lines 381-415)

The RANGE case of `Interpreter::pattern_matches`.  `eval_range_expr`
reduces each of the two sub-patterns to a boolean against the current
record; a sub-pattern is modelled as a `String → Bool` predicate (the
regex-vs-expression distinction inside `eval_range_expr` only decides how
that boolean is computed). -/
def rangeStep (startMatches endMatches : Bool) (active : Bool) : Bool × Bool :=
  if active then
    (true, if endMatches then false else true)
  else if startMatches then
    (true, if endMatches then false else true)
  else
    (false, false)

/-- One record through a RANGE pattern: first component is the value
`pattern_matches` returns (the rule fires), second the updated
`pattern.range_active`. -/
def rangePatternMatches (startP endP : String → Bool) (record : String)
    (active : Bool) : Bool × Bool :=
  rangeStep (startP record) (endP record) active

/-! ## Assignment expressions (interpreter_eval.cpp lines 220-314)

The fragment of the AST and value model that
`Interpreter::evaluate(AssignExpr&)` exercises: plain `=` assignments to
variables, literals, variable reads and concatenations.  AWK numbers are
restricted to their integral fragment (`Int`); `number_to_string` of an
integer-valued double is `std::to_string` of the integer
(value.cpp lines 217-229). -/
inductive AWKVal where
  | uninit
  | num (n : Int)
  | str (s : String)
  deriving Repr, DecidableEq

/-- `AWKValue::string_to_number` (value.cpp lines 131-155) on its
decimal-integer fragment (no hex, fraction or exponent — the claims below
never exercise those): skip leading whitespace, optional sign, then the
value of the leading digit run (0 if there are no digits). -/
def leadingDigits : List Char → Nat → Nat
  | [], acc => acc
  | c :: rest, acc =>
    if c.isDigit then leadingDigits rest (acc * 10 + (c.toNat - 48)) else acc

def string_to_number (s : String) : Int :=
  match s.toList.dropWhile (fun c => c.isWhitespace) with
  | '-' :: rest => -(leadingDigits rest 0 : Int)
  | '+' :: rest => (leadingDigits rest 0 : Int)
  | l => (leadingDigits l 0 : Int)

/-- `AWKValue::to_string` (value.cpp lines 106-129) on the modelled
variants. -/
def AWKVal.toStringV : AWKVal → String
  | .uninit => ""
  | .num n => toString n
  | .str s => s

/-- `AWKValue::to_number` (value.hpp lines 230-244) on the modelled
variants. -/
def AWKVal.toNumber : AWKVal → Int
  | .uninit => 0
  | .num n => n
  | .str s => string_to_number s

/-- Modelled from the spec: `AWKValue::append_string` is called by the
`x = x CONCAT ...` fast path of `evaluate(AssignExpr&)` but its definition
is absent from the sources.  Per the spec the fast path, quote, appends
into the existing string; we model the call as replacing the value with
the String-tagged concatenation of the value's string form and the
appended text. -/
def AWKVal.appendStringV (v : AWKVal) (s : String) : AWKVal :=
  .str (v.toStringV ++ s)

/-- Global environment: `Environment::get_variable` returns the value
bound to a name, an uninitialized value for fresh names.  The claims
exercise no function-local scopes. -/
def Env : Type := String → AWKVal

def Env.update (env : Env) (x : String) (v : AWKVal) : Env :=
  fun y => if y = x then v else env y

/-- AST fragment: `LiteralExpr`, `VariableExpr`, `ConcatExpr`, and
`AssignExpr` with operator `=` and a `VariableExpr` target. -/
inductive MExpr where
  | lit (v : AWKVal)
  | var (name : String)
  | concat (parts : List MExpr)
  | assign (target : String) (value : MExpr)

mutual

/-- `Interpreter::evaluate(Expr&)` on the fragment.  The `assign` case is
`evaluate(AssignExpr&)` (interpreter_eval.cpp lines 220-314): the fast
path fires exactly when the RHS is a concatenation whose first part is
the target variable itself, appends the remaining parts' string forms to
the target in place, and returns a default-constructed `AWKValue()`
(uninitialized); every other assignment stores the RHS value and returns
it.  The `concat` case is `evaluate(ConcatExpr&)` (lines 337-354):
evaluate all parts left to right and join their string forms. -/
def evalM : MExpr → Env → AWKVal × Env
  | .lit v, env => (v, env)
  | .var n, env => (env n, env)
  | .concat parts, env =>
    let r := evalParts parts env
    (.str r.1, r.2)
  | .assign x (.concat (.var y :: rest)), env =>
    if y = x then
      (.uninit, appendLoop x rest env)
    else
      let r := evalParts (MExpr.var y :: rest) env
      (.str r.1, r.2.update x (.str r.1))
  | .assign x rhs, env =>
    let r := evalM rhs env
    (r.1, r.2.update x r.1)

/-- The evaluate-and-join loop of `evaluate(ConcatExpr&)`. -/
def evalParts : List MExpr → Env → String × Env
  | [], env => ("", env)
  | e :: rest, env =>
    let r := evalM e env
    let r2 := evalParts rest r.2
    (r.1.toStringV ++ r2.1, r2.2)

/-- The append loop of the fast path (interpreter_eval.cpp lines 234-236):
for each remaining concat part, evaluate it and
`target.append_string(value.to_string())` through the live reference to
the target variable. -/
def appendLoop (x : String) : List MExpr → Env → Env
  | [], env => env
  | e :: rest, env =>
    let r := evalM e env
    appendLoop x rest (r.2.update x ((r.2 x).appendStringV r.1.toStringV))

end

/-- The matcher of the literal-pattern regex. -/
def litMatcher (pat : List Char) : Matcher where
  find l := (litFindPos pat l).map (fun i => (i, pat.length))
  valid := by
    intro l p len h
    dsimp only at h
    have hsw : ∀ (a b : List Char), startsWith a b = true → a.length ≤ b.length := by
      intro a
      induction a with
      | nil => intro b _; simp
      | cons c cs ihc =>
        intro b hb
        cases b with
        | nil => simp [startsWith] at hb
        | cons d ds =>
          simp only [startsWith, Bool.and_eq_true, decide_eq_true_eq] at hb
          have := ihc ds hb.2
          simp only [List.length_cons]
          omega
    have key : ∀ (l' : List Char) (i : Nat), litFindPos pat l' = some i →
        i + pat.length ≤ l'.length := by
      intro l'
      induction l' with
      | nil =>
        intro i hsome
        by_cases hp : pat.isEmpty
        · simp only [litFindPos, hp, if_pos, Option.some.injEq] at hsome
          subst hsome
          simp [List.isEmpty_iff.mp hp]
        · simp [litFindPos, hp] at hsome
      | cons c rest ih =>
        intro i hsome
        by_cases hpre : startsWith pat (c :: rest)
        · simp only [litFindPos, hpre, if_pos, Option.some.injEq] at hsome
          subst hsome
          simpa using hsw pat (c :: rest) hpre
        · cases hrest : litFindPos pat rest with
          | none => simp [litFindPos, hpre, hrest] at hsome
          | some j =>
            simp [litFindPos, hpre, hrest] at hsome
            have := ih j hrest
            simp only [List.length_cons]
            omega
    cases hfp : litFindPos pat l with
    | none => rw [hfp] at h; exact absurd h (by simp)
    | some i =>
      rw [hfp] at h
      simp only [Option.map_some', Option.some.injEq, Prod.mk.injEq] at h
      obtain ⟨rfl, rfl⟩ := h
      exact key l _ hfp

/-! ## Concrete inputs used by the counterexamples and witnesses -/

/-- A rule action that only appends a log entry and finishes normally. -/
def appendLogAction (msg : String) : Action :=
  fun st => ({ log := st.log ++ [msg] }, .none)

/-- A rule action that appends a log entry and then throws
`ExitException(status)`. -/
def exitAction (msg : String) (status : Int) : Action :=
  fun st => ({ log := st.log ++ [msg] }, .exitSig status)

/-- A rule action that appends a log entry and then throws
`NextfileException`. -/
def nextfileAction (msg : String) : Action :=
  fun st => ({ log := st.log ++ [msg] }, .nextfileSig)

/-- `BEGIN { print "B"; exit } END { print "E" }`. -/
def exitBeginProgram : DriverProgram :=
  { begins := [exitAction "B" 0]
    ends := [appendLogAction "E"]
    beginfiles := []
    endfiles := []
    mains := [] }

/-- `BEGIN { exit 3 }`. -/
def exitThreeProgram : DriverProgram :=
  { begins := [exitAction "X" 3]
    ends := []
    beginfiles := []
    endfiles := []
    mains := [] }

/-- `BEGINFILE { print "BF" } ENDFILE { print "EF" } { print "M"; nextfile }`. -/
def nextfileProgram : DriverProgram :=
  { begins := []
    ends := []
    beginfiles := [appendLogAction "BF"]
    endfiles := [appendLogAction "EF"]
    mains := [nextfileAction "M"] }

/-- The field state after `$0 = "a b"` from the start state: record
`"a b"`, fields `["a", "b"]`, `NF = 2`, clean flags. -/
def sampleFieldState : FieldState :=
  set_field splitWhitespace 0 "a b" initFieldState

/-- Sequential concatenation of a list of strings, the shape the
`ConcatExpr` loop builds with `result += part`. -/
def strConcat : List String → String
  | [] => ""
  | s :: rest => s ++ strConcat rest

/-- A sample environment for the assignment witness: `x` holds the string
`"a"`, everything else is uninitialized. -/
def envA : Env :=
  Env.update (fun _ => AWKVal.uninit) "x" (.str "a")

/-! ## General lemmas about the substitution model -/

theorem formatRepl_amp (matched : List Char) :
    formatRepl matched ['$', '&'] = matched := by
  simp [formatRepl]

theorem splice_id (l : List Char) (p len : Nat) :
    l.take p ++ (l.drop p).take len ++ l.drop (p + len) = l := by
  rw [show l.drop (p + len) = (l.drop p).drop len by rw [List.drop_drop, Nat.add_comm]]
  rw [List.append_assoc, List.take_append_drop, List.take_append_drop]

theorem splice_eq_iff (l x : List Char) (p len : Nat) :
    l.take p ++ x ++ l.drop (p + len) = l ↔ x = (l.drop p).take len := by
  constructor
  · intro h
    have hid := splice_id l p len
    have h3 : l.take p ++ x ++ l.drop (p + len) =
        l.take p ++ (l.drop p).take len ++ l.drop (p + len) := h.trans hid.symm
    exact List.append_cancel_left (List.append_cancel_right h3)
  · intro h
    rw [h]
    exact splice_id l p len

theorem replaceAllAux_amp_self (m : Matcher) (l : List Char) :
    (replaceAllAux m ['$', '&'] l).1 = l := by
  generalize hn : l.length = n
  induction n using Nat.strong_induction_on generalizing l with
  | _ n ih =>
  subst hn
  rw [replaceAllAux]
  split
  · rfl
  · rename_i p len hfind
    have hv := m.valid l p len hfind
    by_cases hlen : 0 < len
    · simp only [hlen, dif_pos]
      have ihr := ih (l.drop (p + len)).length (by simp only [List.length_drop]; omega)
        (l.drop (p + len)) rfl
      simp only [formatRepl_amp, ihr]
      rw [show l.drop (p + len) = (l.drop p).drop len by rw [List.drop_drop, Nat.add_comm]]
      rw [List.append_assoc, List.take_append_drop, List.take_append_drop]
    · simp only [hlen, dif_neg, not_false_iff]
      have hlen0 : len = 0 := by omega
      subst hlen0
      by_cases hp : p < l.length
      · simp only [hp, dif_pos]
        have ihr := ih (l.drop (p + 1)).length (by simp only [List.length_drop]; omega)
          (l.drop (p + 1)) rfl
        simp only [formatRepl_amp, ihr, List.take_zero, List.nil_append]
        rw [List.get_cons_drop]
        simp only [Fin.val_mk, List.append_nil, List.nil_append, List.take_append_drop]
      · simp only [hp, dif_neg, not_false_iff]
        simp only [formatRepl_amp, List.take_zero, List.append_nil]
        exact List.take_of_length_le (by omega)

theorem countMatches_eq_replaceAll_count (m : Matcher) (fmt : List Char)
    (l : List Char) : countMatches m l = (replaceAllAux m fmt l).2 := by
  generalize hn : l.length = n
  induction n using Nat.strong_induction_on generalizing l with
  | _ n ih =>
  subst hn
  rw [replaceAllAux, countMatches]
  split
  · rfl
  · rename_i p len hfind
    have hv := m.valid l p len hfind
    by_cases hlen : 0 < len
    · simp only [hlen, dif_pos]
      rw [ih (l.drop (p + len)).length (by simp only [List.length_drop]; omega)
        (l.drop (p + len)) rfl]
    · have hlen0 : len = 0 := by omega
      subst hlen0
      simp only [hlen, dif_neg, not_false_iff]
      by_cases hp : p < l.length
      · simp only [hp, dif_pos]
        rw [ih (l.drop (p + 1)).length (by simp only [List.length_drop]; omega)
          (l.drop (p + 1)) rfl]
      · simp only [hp, dif_neg, not_false_iff]

theorem replaceFirst_eq_self_iff (m : Matcher) (fmt : List Char) (l : List Char) :
    replaceFirst m fmt l = l ↔
      (m.find l = Option.none ∨
       ∃ p len, m.find l = some (p, len) ∧
         formatRepl ((l.drop p).take len) fmt = (l.drop p).take len) := by
  rw [replaceFirst]
  cases hfind : m.find l with
  | none => simp
  | some pl =>
    obtain ⟨p, len⟩ := pl
    simp only [hfind, Option.some.injEq, reduceCtorEq, false_or]
    rw [splice_eq_iff]
    constructor
    · intro h
      exact ⟨p, len, rfl, h⟩
    · rintro ⟨p', len', heq, hfmt⟩
      obtain ⟨rfl, rfl⟩ : p = p' ∧ len = len' := by
        simp only [Option.some.injEq, Prod.mk.injEq] at heq
        exact heq
      exact hfmt

/-! ## General lemmas about fields and the append loop -/

theorem getD_append_replicate (l : List String) (k j : Nat)
    (h1 : l.length ≤ j) (h2 : j < k) :
    (l ++ List.replicate (k - l.length) "").getD j "" = "" := by
  rw [List.getD_eq_getElem?_getD, List.getElem?_append_right h1,
    List.getElem?_replicate]
  have hlt : j - l.length < k - l.length := by omega
  simp [hlt]

theorem appendLoop_lits (x : String) :
    ∀ (vs : List AWKVal) (env : Env), vs ≠ [] →
      appendLoop x (vs.map MExpr.lit) env x
        = .str ((env x).toStringV ++ strConcat (vs.map AWKVal.toStringV)) := by
  intro vs
  induction vs with
  | nil => intro env h; exact absurd rfl h
  | cons v rest ih =>
    intro env _
    by_cases hr : rest = []
    · subst hr
      simp [appendLoop, evalM, strConcat, AWKVal.appendStringV, Env.update]
    · simp only [List.map_cons, appendLoop, evalM]
      rw [ih _ hr]
      simp [Env.update, AWKVal.appendStringV, AWKVal.toStringV, strConcat,
        String.append_assoc]

/-! ## Claim C4 -/

/-- C4, counterexample: for `sub(/a/, "a")` applied to the target string
`"abc"`, the pattern matches (at position 0, length 1) and the engine
performs the — identity — replacement, yet the interpreter returns 0
because the resulting string equals the original
(`count = (result != target_str) ? 1 : 0`), contradicting the claimed
return value 1. -/
theorem c4_sub_identity_returns_zero :
    (litMatcher ['a']).find "abc".toList = some (0, 1) ∧
      (subCall (litMatcher ['a']) ['a'] "abc".toList).2 = 0 := by
  exact ⟨rfl, rfl⟩

/-- C4 (amended): `gsub` returns the number of replacement operations the
engine actually performs (the counting loop agrees with the number of
format expansions done by `regex_replace`), even when the text is
unchanged; `sub`, however, returns 0 not only when there is no match but
also when the expanded replacement equals the matched text — so a
replacement identical to the matched text is reported as 0 by `sub`, and
as the match count by `gsub`. -/
theorem c4_substitution_counts (m : Matcher) (repl target : List Char) :
    (gsubCall m repl target).2 =
        (replaceAllAux m (convert_awk_replacement repl) target).2 ∧
    ((subCall m repl target).2 = 0 ↔
      (m.find target = Option.none ∨
        ∃ p len, m.find target = some (p, len) ∧
          formatRepl ((target.drop p).take len) (convert_awk_replacement repl)
            = (target.drop p).take len)) := by
  constructor
  · have hc := countMatches_eq_replaceAll_count m (convert_awk_replacement repl) target
    rw [gsubCall]
    split
    · exact hc
    · exact hc
  · rw [← replaceFirst_eq_self_iff m (convert_awk_replacement repl) target]
    rw [subCall]
    split
    · rename_i hne
      simp only [ne_eq] at hne
      constructor
      · intro h; exact absurd h (by omega)
      · intro h; exact absurd h hne
    · rename_i hne
      simp only [ne_eq, not_not] at hne
      exact ⟨fun _ => hne, fun _ => rfl⟩

/-! ## Claim C5 -/

/-- C5, counterexample: `substr("hello", 2, -5)` — the claim requires the
empty string whenever `n ≤ 0`, but the negative length is converted to a
huge unsigned count, so the call returns the whole suffix `"ello"`. -/
theorem c5_substr_negative_length :
    substrModel3 "hello" 2 (-5) = "ello" ∧ substrModel3 "hello" 2 (-5) ≠ "" := by
  refine ⟨rfl, by decide⟩

/-- C5 (amended): for `n ≥ 0`, `substr(s, m, n)` returns at most `n`
characters starting at the (1-clamped) position `m`; a start below 1
clamps to 1 (both forms); `n = 0` yields the empty string, but a negative
`n` does not: it converts to a huge unsigned count and yields the whole
suffix, the same result as the two-argument form; `substr(s, m)` returns
the suffix of `s` from position `m`. -/
theorem c5_substr_characterization (s : String) (m n : Int) :
    (0 ≤ n → 1 ≤ m →
      substrModel3 s m n = String.mk ((s.toList.drop (m.toNat - 1)).take n.toNat) ∧
      (substrModel3 s m n).length ≤ n.toNat) ∧
    (m < 1 → substrModel3 s m n = substrModel3 s 1 n ∧
      substrModel2 s m = substrModel2 s 1) ∧
    (substrModel3 s m 0 = "") ∧
    (1 ≤ m → substrModel2 s m = String.mk (s.toList.drop (m.toNat - 1))) ∧
    (n < 0 → s.toList.length < 2 ^ 64 - n.natAbs →
      substrModel3 s m n = substrModel2 s m) := by
  refine ⟨?_, ?_, ?_, ?_, ?_⟩
  · intro hn hm
    have hm1 : ¬ m < 1 := by omega
    have hidx : (m - 1).toNat = m.toNat - 1 := by omega
    have htn : sizeTOfInt n = n.toNat := by rw [sizeTOfInt, if_pos hn]
    rw [substrModel3, if_neg hm1, hidx, htn]
    by_cases hlen : s.length ≤ m.toNat - 1
    · rw [if_pos hlen]
      have hdrop : s.toList.drop (m.toNat - 1) = [] :=
        List.drop_eq_nil_of_le (by simpa using hlen)
      rw [hdrop]
      exact ⟨by rw [List.take_nil], Nat.zero_le _⟩
    · rw [if_neg hlen]
      refine ⟨rfl, ?_⟩
      have hL : (String.mk ((s.toList.drop (m.toNat - 1)).take n.toNat)).length
          = ((s.toList.drop (m.toNat - 1)).take n.toNat).length := rfl
      rw [hL, List.length_take]
      omega
  · intro hm
    have h1 : ¬ (1 : Int) < 1 := by omega
    constructor
    · rw [substrModel3, substrModel3, if_pos hm, if_neg h1]
    · rw [substrModel2, substrModel2, if_pos hm, if_neg h1]
  · have h0 : sizeTOfInt 0 = 0 := by rw [sizeTOfInt, if_pos (by omega)]; rfl
    by_cases hm : m < 1
    · rw [substrModel3, if_pos hm, h0]
      by_cases hlen : s.length ≤ ((1 : Int) - 1).toNat
      · rw [if_pos hlen]
      · rw [if_neg hlen]
        rfl
    · rw [substrModel3, if_neg hm, h0]
      by_cases hlen : s.length ≤ (m - 1).toNat
      · rw [if_pos hlen]
      · rw [if_neg hlen]
        rfl
  · intro hm
    have hm1 : ¬ m < 1 := by omega
    have hidx : (m - 1).toNat = m.toNat - 1 := by omega
    rw [substrModel2, if_neg hm1, hidx]
    by_cases hlen : s.length ≤ m.toNat - 1
    · rw [if_pos hlen]
      have hdrop : s.toList.drop (m.toNat - 1) = [] :=
        List.drop_eq_nil_of_le (by simpa using hlen)
      rw [hdrop]
    · rw [if_neg hlen]
  · intro hn hlen
    have hs : sizeTOfInt n = 2 ^ 64 - n.natAbs := by
      rw [sizeTOfInt, if_neg (by omega)]
    have htake : ∀ start : Nat,
        (s.toList.drop start).take (2 ^ 64 - n.natAbs) = s.toList.drop start := by
      intro start
      apply List.take_of_length_le
      have hd : (s.toList.drop start).length ≤ s.toList.length := by
        simp [List.length_drop]
      omega
    rw [substrModel3, substrModel2, hs, htake]

/-- C5, witness for the amended characterization at concrete inputs. -/
theorem c5_substr_witness :
    ((substrModel3 "hello" 2 3).length ≤ 3 ∧
      substrModel3 "hello" 2 (-7) = substrModel2 "hello" 2) :=
  ⟨((c5_substr_characterization "hello" 2 3).1 (by decide) (by decide)).2,
   (c5_substr_characterization "hello" 2 (-7)).2.2.2.2 (by decide) (by decide)⟩

/-! ## Claim C8 -/

/-- C8 (confirmed): per rule instance, while inactive the rule fires for a
record iff start matches it, becoming active unless end also matches the
same record (in which case it fires once and stays inactive); while
active the rule fires for every record, and when end matches it
deactivates after that record has still matched. -/
theorem c8_range_pattern (startP endP : String → Bool) (r : String) :
    (startP r = true → endP r = false →
        rangePatternMatches startP endP r false = (true, true)) ∧
    (startP r = true → endP r = true →
        rangePatternMatches startP endP r false = (true, false)) ∧
    (startP r = false →
        rangePatternMatches startP endP r false = (false, false)) ∧
    (endP r = false → rangePatternMatches startP endP r true = (true, true)) ∧
    (endP r = true → rangePatternMatches startP endP r true = (true, false)) := by
  refine ⟨?_, ?_, ?_, ?_, ?_⟩ <;>
    intro h1 <;>
    first
      | (intro h2; simp [rangePatternMatches, rangeStep, h1, h2])
      | simp [rangePatternMatches, rangeStep, h1]

/-- C8, witness: on record "BEGIN" with range /BEGIN/,/END/ and inactive
state, the rule fires and becomes active. -/
theorem c8_range_witness :
    rangePatternMatches (fun s => s == "BEGIN") (fun s => s == "END")
      "BEGIN" false = (true, true) :=
  (c8_range_pattern (fun s => s == "BEGIN") (fun s => s == "END") "BEGIN").1
    (by decide) (by decide)

/-! ## Claim C9 -/

/-- C9 (confirmed): `gsub(re, "&", s)` is a no-op on the subject — every
match is replaced by itself, so the stored value is unchanged (the
write-back is skipped) — while the call still returns the number of
matches found by the counting loop. -/
theorem c9_gsub_amp_noop (m : Matcher) (s : List Char) :
    gsubCall m ['&'] s = (s, countMatches m s) := by
  have hfmt : convert_awk_replacement ['&'] = ['$', '&'] := rfl
  have hid := replaceAllAux_amp_self m s
  rw [gsubCall, hfmt]
  simp [hid]

/-! ## Claim C1 -/

/-- C1, counterexample: for the program
`BEGIN { print "B"; exit } END { print "E" }` with no input, the final
log is exactly `["B"]`: the END rule (which would have logged `"E"`)
never executed, refuting the claim that an exit during BEGIN still runs
all END rules.  The catch for `ExitException` in `run` sits after
`execute_end_rules()`, so the throw unwinds past the END stage. -/
theorem c1_exit_skips_end :
    (runModel exitBeginProgram [] 0).1.log = ["B"] ∧
      ¬ "E" ∈ (runModel exitBeginProgram [] 0).1.log := by
  refine ⟨rfl, by decide⟩

/-- C1 (amended): an `Exit` signal terminates rule processing immediately
with the state at the throw, whatever the stage: thrown during the BEGIN
rules or during the per-file/record stage it skips the END rules entirely
(the final state is exactly the state at the throw, with no contribution
from any END action), and thrown during an END rule it stops END
processing at that point; the interpreter then closes its streams and
finishes. -/
theorem c1_exit_protocol (p : DriverProgram) (files : List Nat) (n : Nat) :
    (∀ st1 s, runActions p.begins { log := [] } = (st1, .exitSig s) →
        runModel p files n = (st1, some s)) ∧
    (∀ st1 st2 s, runActions p.begins { log := [] } = (st1, .none) →
        (if files.isEmpty then processStream p.mains n st1
         else runFiles p files st1) = (st2, .exitSig s) →
        runModel p files n = (st2, some s)) ∧
    (∀ st1 st2 st3 s, runActions p.begins { log := [] } = (st1, .none) →
        (if files.isEmpty then processStream p.mains n st1
         else runFiles p files st1) = (st2, .none) →
        runActions p.ends st2 = (st3, .exitSig s) →
        runModel p files n = (st3, some s)) := by
  refine ⟨?_, ?_, ?_⟩
  · intro st1 s h1
    simp only [runModel, h1]
  · intro st1 st2 s h1 h2
    simp only [runModel, h1, h2]
  · intro st1 st2 st3 s h1 h2 h3
    simp only [runModel, h1, h2, h3]

/-- C1, witness: the amended exit protocol applied to the concrete
program `BEGIN { print "B"; exit } END { print "E" }`. -/
theorem c1_exit_protocol_witness :
    runModel exitBeginProgram [] 0 = ({ log := ["B"] }, some 0) :=
  (c1_exit_protocol exitBeginProgram [] 0).1 { log := ["B"] } 0 rfl

/-! ## Claim C2 -/

/-- C2, counterexample: the program `BEGIN { exit 3 }` executes `exit 3`
(the run ends with a caught `ExitException` of status 3), yet the process
exit status computed by `main` is 0, not 3: `run` discards the caught
status and `main` returns 0. -/
theorem c2_exit_status_dropped :
    (runModel exitThreeProgram [] 0).2 = some 3 ∧
      mainExitStatus exitThreeProgram [] 0 = 0 ∧
      mainExitStatus exitThreeProgram [] 0 ≠ 3 := by
  refine ⟨rfl, rfl, by decide⟩

/-- C2 (amended): for every run without parse or startup error the
process exit status is 0, regardless of the program and its input — the
status carried by the `ExitException` that `run` catches is discarded,
so `exit N` never influences the final status. -/
theorem c2_status_always_zero (p : DriverProgram) (files : List Nat) (n : Nat) :
    mainExitStatus p files n = 0 := rfl

/-! ## Claim C3 -/

/-- C3, counterexample: for the program
`BEGINFILE { print "BF" } ENDFILE { print "EF" } { print "M"; nextfile }`
on a single one-record input file, the final log is `["BF", "M"]`: the
ENDFILE rule never ran, because `NextfileException` propagates out of
`process_file` past `execute_endfile_rules()` and is only caught by the
per-file loop in `run`. -/
theorem c3_nextfile_skips_endfile :
    (runModel nextfileProgram [1] 0).1.log = ["BF", "M"] ∧
      ¬ "EF" ∈ (runModel nextfileProgram [1] 0).1.log := by
  refine ⟨rfl, by decide⟩

/-- C3 (amended): when a file's record loop reaches end of input
normally, the ENDFILE rules run before the driver advances to the next
target; but when the record loop is left via a nextfile signal,
`process_file` propagates the signal immediately — skipping the ENDFILE
rules — and the per-file driver catches it and continues with the next
input target. -/
theorem c3_endfile_protocol (p : DriverProgram) (records : Nat)
    (st st1 st2 : DriverState) :
    (runActions p.beginfiles st = (st1, .none) →
      processStream p.mains records st1 = (st2, .none) →
      processFile p records st = runActions p.endfiles st2) ∧
    (runActions p.beginfiles st = (st1, .none) →
      processStream p.mains records st1 = (st2, .nextfileSig) →
      processFile p records st = (st2, .nextfileSig)) ∧
    (∀ rest, processFile p records st = (st2, .nextfileSig) →
      runFiles p (records :: rest) st = runFiles p rest st2) := by
  refine ⟨?_, ?_, ?_⟩
  · intro h1 h2
    simp only [processFile, h1, h2]
  · intro h1 h2
    simp only [processFile, h1, h2]
  · intro rest h1
    simp only [runFiles, h1]

/-- C3, witness: the amended protocol applied to the concrete nextfile
program — `process_file` returns with the nextfile signal and the state
after BEGINFILE and the main rule, ENDFILE having been skipped. -/
theorem c3_endfile_protocol_witness :
    processFile nextfileProgram 1 { log := [] }
      = ({ log := ["BF", "M"] }, .nextfileSig) :=
  (c3_endfile_protocol nextfileProgram 1 { log := [] } { log := ["BF"] }
    { log := ["BF", "M"] }).2.1 rfl rfl

/-! ## Claim C6 -/

/-- C6, counterexample: in the state after `$0 = "a b"` (fields
`["a", "b"]`, `NF = 2`, clean flags), reading the out-of-range field `$5`
does yield `""`, but it extends the fields vector in place to
`["a", "b", "", "", ""]` — a side effect on interpreter state that the
claim says cannot happen. -/
theorem c6_out_of_range_read_extends :
    (get_field splitWhitespace " " 5 sampleFieldState).1 = "" ∧
      (get_field splitWhitespace " " 5 sampleFieldState).2.fields
        = ["a", "b", "", "", ""] ∧
      sampleFieldState.fields = ["a", "b"] := by
  refine ⟨rfl, rfl, rfl⟩

/-- C6 (amended): an out-of-range field read yields the empty string and
leaves `NF` and the current record unchanged; a negative index leaves the
whole state unchanged, but a positive index beyond the current field
count extends the fields vector in place with empty strings up to that
index (without touching `NF` or the dirty flags). -/
theorem c6_out_of_range_read (split : String → List String) (ofs : String)
    (st : FieldState) (i : Int) (hclean : st.recordDirty = false) :
    (i < 0 → get_field split ofs i st = ("", st)) ∧
    (0 < i → st.fields.length < i.toNat →
      (get_field split ofs i st).1 = "" ∧
      (get_field split ofs i st).2 =
        { st with fields :=
            st.fields ++ List.replicate (i.toNat - st.fields.length) "" }) := by
  have hpf : parse_fields split st = st := by
    rw [parse_fields, if_neg (by simp [hclean])]
  constructor
  · intro hneg
    simp only [get_field, hpf]
    rw [if_neg (by omega : ¬ i = 0), if_pos hneg]
  · intro hpos hlt
    have hext : extendFields st.fields i.toNat
        = st.fields ++ List.replicate (i.toNat - st.fields.length) "" := by
      rw [extendFields, if_pos hlt]
    simp only [get_field, hpf, hext]
    rw [if_neg (by omega : ¬ i = 0), if_neg (by omega : ¬ i < 0)]
    constructor
    · exact getD_append_replicate st.fields i.toNat (i.toNat - 1)
        (by omega) (by omega)
    · rfl

/-- C6, witness: the amended statement at the sample state — a negative
read is a pure no-op, and a positive out-of-range read returns "". -/
theorem c6_out_of_range_read_witness :
    get_field splitWhitespace " " (-3) sampleFieldState
        = ("", sampleFieldState) ∧
      (get_field splitWhitespace " " 7 sampleFieldState).1 = "" :=
  ⟨(c6_out_of_range_read splitWhitespace " " sampleFieldState (-3)
      (by decide)).1 (by decide),
   ((c6_out_of_range_read splitWhitespace " " sampleFieldState 7
      (by decide)).2 (by decide) (by decide)).1⟩

/-! ## Claim C7 -/

/-- C7, counterexample: with fields `["a", "b"]` and `NF = 2`, first
reading the out-of-range field `$10` (which silently grows the fields
vector to length 10 without updating `NF`), then assigning `$5 = "x"`
(and `5 > NF = 2`) leaves `NF = 10`, not `5` — `set_field` sets `NF`
from `fields_.size()`, which the earlier read had already inflated. -/
theorem c7_nf_not_index :
    ((get_field splitWhitespace " " 10 sampleFieldState).2).nf = 2 ∧
      (set_field splitWhitespace 5 "x"
        (get_field splitWhitespace " " 10 sampleFieldState).2).nf = 10 ∧
      (set_field splitWhitespace 5 "x"
        (get_field splitWhitespace " " 10 sampleFieldState).2).nf ≠ 5 := by
  refine ⟨rfl, rfl, by decide⟩

/-- C7 (amended): after `$i = v` with `i` beyond the fields-vector length
— which is `i > NF` whenever `NF` equals that length, i.e. unless an
out-of-range read has extended the vector — every field strictly between
the old `NF` and `i` is the empty string and `NF` equals `i`; and after
any field assignment with nonnegative index, `NF` equals the length of
the fields vector. -/
theorem c7_extend_assignment (split : String → List String) (st : FieldState)
    (i : Int) (v : String) :
    (st.recordDirty = false → st.nf = st.fields.length → st.nf < i.toNat →
      (set_field split i v st).nf = i.toNat ∧
      (set_field split i v st).fields.length = i.toNat ∧
      (∀ j, st.nf < j → j < i.toNat →
        (set_field split i v st).fields.getD (j - 1) "" = "")) ∧
    (0 ≤ i → (set_field split i v st).nf = (set_field split i v st).fields.length) := by
  constructor
  · intro hclean hnf hgt
    have hpf : parse_fields split st = st := by
      rw [parse_fields, if_neg (by simp [hclean])]
    have hext : extendFields st.fields i.toNat
        = st.fields ++ List.replicate (i.toNat - st.fields.length) "" := by
      rw [extendFields, if_pos (by omega)]
    have hlen : ((extendFields st.fields i.toNat).set (i.toNat - 1) v).length
        = i.toNat := by
      rw [hext]
      simp only [List.length_set, List.length_append, List.length_replicate]
      omega
    simp only [set_field, hpf]
    rw [if_neg (by omega : ¬ i = 0), if_neg (by omega : ¬ i < 0)]
    refine ⟨hlen, hlen, ?_⟩
    intro j hj1 hj2
    rw [List.getD_eq_getElem?_getD, List.getElem?_set_ne (by omega), hext,
      ← List.getD_eq_getElem?_getD]
    exact getD_append_replicate st.fields i.toNat (j - 1) (by omega) (by omega)
  · intro hi
    by_cases h0 : i = 0
    · simp [set_field, h0, parse_fields]
    · have hneg : ¬ i < 0 := by omega
      simp [set_field, h0, hneg]

/-- C7, witness: assigning `$5 = "x"` in the clean sample state (fields
`["a", "b"]`, `NF = 2`) gives `NF = 5` with `$3` empty. -/
theorem c7_extend_assignment_witness :
    (set_field splitWhitespace 5 "x" sampleFieldState).nf = 5 ∧
      (set_field splitWhitespace 5 "x" sampleFieldState).fields.getD 2 "" = "" :=
  ⟨((c7_extend_assignment splitWhitespace sampleFieldState 5 "x").1
      (by decide) (by decide) (by decide)).1,
   ((c7_extend_assignment splitWhitespace sampleFieldState 5 "x").1
      (by decide) (by decide) (by decide)).2.2 3 (by decide) (by decide)⟩

/-! ## Claim C10 -/

/-- C10 (confirmed): evaluating an assignment of the exact shape
`x = x e1 e2 ...` (plain `=` whose right-hand side is a concatenation
whose first part is the target variable itself) appends the string forms
of the remaining parts to `x` in place, and the value of the assignment
expression is the uninitialized value (string form `""`, numeric form 0)
— unlike every other assignment, whose expression value is the value
just stored in the target. -/
theorem c10_self_concat_fast_path (env : Env) (x : String) (vs : List AWKVal)
    (rest : List MExpr) (rhs : MExpr) :
    ((evalM (.assign x (.concat (.var x :: rest))) env).1 = .uninit ∧
      AWKVal.toStringV (evalM (.assign x (.concat (.var x :: rest))) env).1 = "" ∧
      AWKVal.toNumber (evalM (.assign x (.concat (.var x :: rest))) env).1 = 0) ∧
    (vs ≠ [] →
      (evalM (.assign x (.concat (.var x :: vs.map MExpr.lit))) env).2 x
        = .str ((env x).toStringV ++ strConcat (vs.map AWKVal.toStringV))) ∧
    ((∀ y rest0, rhs = .concat (.var y :: rest0) → y ≠ x) →
      (evalM (.assign x rhs) env).1 = (evalM (.assign x rhs) env).2 x) := by
  refine ⟨?_, ?_, ?_⟩
  · simp [evalM, AWKVal.toStringV, AWKVal.toNumber]
  · intro hvs
    simp only [evalM, if_pos rfl]
    exact appendLoop_lits x vs env hvs
  · intro hshape
    cases rhs with
    | lit v => simp [evalM, Env.update]
    | var nm => simp [evalM, Env.update]
    | assign t r => simp [evalM, Env.update]
    | concat parts =>
      cases parts with
      | nil => simp [evalM, evalParts, Env.update]
      | cons e es =>
        cases e with
        | var y =>
          have hyx : y ≠ x := hshape y es rfl
          simp [evalM, hyx, Env.update]
        | lit v => simp [evalM, Env.update]
        | concat ps => simp [evalM, Env.update]
        | assign t r => simp [evalM, Env.update]

/-- C10, witness: `x = x "b" 5` with `x` holding `"a"` stores `"ab5"` in
`x` while the expression's value is the uninitialized value. -/
theorem c10_self_concat_witness :
    (evalM (.assign "x" (.concat [.var "x", .lit (.str "b"), .lit (.num 5)]))
        envA).2 "x" = .str "ab5" ∧
      (evalM (.assign "x" (.concat [.var "x", .lit (.str "b"), .lit (.num 5)]))
        envA).1 = .uninit := by
  constructor
  · have h := (c10_self_concat_fast_path envA "x" [.str "b", .num 5] []
      (.lit .uninit)).2.1 (by decide)
    simpa using h
  · exact (c10_self_concat_fast_path envA "x" [] [.lit (.str "b"), .lit (.num 5)]
      (.lit .uninit)).1.1

end Awk
